import Mathlib

/-!
Verification development for the Redash permissions-update tool
(`src/redash.py`).  The Python source is shallowly embedded: JSON
payloads become the `Json` inductive, HTTP outcomes become `HttpResult`,
the sqlite `queries` table becomes a list of `Fact` rows in insertion
order, and each Python function becomes a Lean function of the same name
with the network and storage effects made explicit (responses are passed
in as values, the table is threaded through as state).
-/

namespace RedashPerm

/-- JSON values as decoded by `response.json()` in the source. -/
inductive Json where
  | null : Json
  | num : Int → Json
  | str : String → Json
  | arr : List Json → Json
  | obj : List (String × Json) → Json

/-- Field lookup in a decoded JSON object, mirroring Python `dict.get`. -/
def lookupField : List (String × Json) → String → Option Json
  | [], _ => none
  | (k, v) :: rest, key => if k = key then some v else lookupField rest key

/-- `j.get(key)` on a dict; `none` when `j` is not a dict or lacks the key. -/
def jGet : Json → String → Option Json
  | Json.obj fields, key => lookupField fields key
  | _, _ => none

/-- `int(j.get(key, d))` for numeric JSON fields (the source only ever
stores integers in the fields it reads this way). -/
def getNumD (j : Json) (key : String) (d : Int) : Int :=
  match jGet j key with
  | some (Json.num n) => n
  | _ => d

/-- `v == ""` for a JSON value, as tested on line 57 of the source. -/
def isEmptyString : Json → Bool
  | Json.str s => s.isEmpty
  | _ => false

/-- Outcome of one HTTP exchange: a raised `requests.RequestException`,
or a response with a status code and decoded JSON body. -/
inductive HttpResult where
  | exn : HttpResult
  | resp : Nat → Json → HttpResult

/-- The test `res.get("message", "") != ""` from `send_request`. -/
def nonEmptyMessage (body : Json) : Bool :=
  match jGet body ("message") with
  | some v => !(isEmptyString v)
  | none => false

/-- `send_request` (src/redash.py:15-63): `none` on a transport
exception, on a non-200 status, or on a 200 dict body whose `message`
field differs from the empty string; otherwise the decoded body. -/
def send_request (r : HttpResult) : Option Json :=
  match r with
  | HttpResult.exn => none
  | HttpResult.resp code body =>
    if code = 200 then
      match body with
      | Json.obj fs =>
        if nonEmptyMessage (Json.obj fs) then none else some (Json.obj fs)
      | b => some b
    else none

/-- `get_status` (src/redash.py:66-95): its error test is
`res.get("message") is not None`, unlike `send_request`. -/
def get_status (r : HttpResult) : Option Json :=
  match r with
  | HttpResult.exn => none
  | HttpResult.resp code body =>
    if code = 200 then
      match body with
      | Json.obj fs =>
        match jGet (Json.obj fs) ("message") with
        | none => some (Json.obj fs)
        | some Json.null => some (Json.obj fs)
        | some _ => none
      | b => some b
    else none

/-- `get_queries` (src/redash.py:173-190): a non-dict 200 payload is
rejected as a bad response format. -/
def get_queries (r : HttpResult) : Option Json :=
  match send_request r with
  | some (Json.obj fs) => some (Json.obj fs)
  | _ => none

/-- `get_users_in_group` (src/redash.py:193-207): a non-list payload is
rejected as a bad response format. -/
def get_users_in_group (r : HttpResult) : Option (List Json) :=
  match send_request r with
  | some (Json.arr ms) => some ms
  | _ => none

/-- One row of the sqlite `queries` table (src/redash.py:235-242). -/
structure Fact where
  query_id : Int
  owner_id : Int
  editor_id : Int
deriving DecidableEq, Repr

/-- The `queries` table, as its rows in insertion order. -/
abbrev Cache := List Fact

/-- `INSERT OR IGNORE` of one row, keyed by the full triple
(src/redash.py:157-161 and 279-282). -/
def insertFact (db : Cache) (f : Fact) : Cache :=
  if f ∈ db then db else db ++ [f]

/-- The duplicate probe of ingestion:
`SELECT editor_id FROM queries WHERE query_id = ? AND owner_id = ?`
(src/redash.py:271-275) — it tests the pair, not the full triple. -/
def pairExists (db : Cache) (q o : Int) : Bool :=
  db.any (fun f => f.query_id == q && f.owner_id == o)

/-- The per-query validation of the ingestion loop
(src/redash.py:262-269): a page item contributes `(query_id, owner_id)`
only when it is a dict whose `user` field is itself a dict. -/
def extractFact (item : Json) : Option (Int × Int) :=
  match item with
  | Json.obj fs =>
    match jGet (Json.obj fs) ("user") with
    | some (Json.obj ufs) =>
      some (getNumD (Json.obj fs) ("id") 0, getNumD (Json.obj ufs) ("id") 0)
    | _ => none
  | _ => none

/-- All `(query_id, owner_id)` pairs contributed by a page. -/
def pagePairs (items : List Json) : List (Int × Int) :=
  items.filterMap extractFact

/-- The inner loop of `download_queries_info` over one page
(src/redash.py:260-283): skip invalid items, probe the pair, and on a
miss record the `(query_id, owner_id, owner_id)` fact and raise the
`has_new_query` flag. -/
def processPage (db : Cache) (hasNew : Bool) : List Json → Cache × Bool
  | [] => (db, hasNew)
  | item :: rest =>
    match extractFact item with
    | none => processPage db hasNew rest
    | some (qid, oid) =>
      if pairExists db qid oid then processPage db hasNew rest
      else processPage (insertFact db ⟨qid, oid, oid⟩) true rest

/-- Extraction of the `results` list from one `get_queries` payload
(src/redash.py:253-258); `none` means the page loop breaks. -/
def pageResults (r : HttpResult) : Option (List Json) :=
  match get_queries r with
  | some qi =>
    match jGet qi ("results") with
    | some (Json.arr items) => some items
    | _ => none
  | none => none

/-- The page loop of `download_queries_info` (src/redash.py:252-286),
with the request for page number `page` drawn from `net`.  The second
component counts issued page requests; a failed page or an
all-duplicate page is still a request and then stops the loop. -/
def ingestPages (net : Nat → HttpResult) : Nat → Nat → Cache → Cache × Nat
  | _, 0, db => (db, 0)
  | page, fuel + 1, db =>
    match pageResults (net page) with
    | none => (db, 1)
    | some items =>
      let res := processPage db false items
      if res.2 then
        let rest := ingestPages net (page + 1) fuel res.1
        (rest.1, rest.2 + 1)
      else (res.1, 1)

/-- The page-count computation of `download_queries_info`
(src/redash.py:246-250): `int(status.get("queries_count", 1)) // 25 + 1`
when `get_status` yields a dict, `none` otherwise. -/
def pagesOf (r : HttpResult) : Option Nat :=
  match get_status r with
  | some (Json.obj fs) =>
    some ((Int.fdiv (getNumD (Json.obj fs) ("queries_count") 1) 25 + 1).toNat)
  | _ => none

/-- `download_queries_info` (src/redash.py:227-289), returning the
final table and the number of page requests issued. -/
def download_queries_info (statusResp : HttpResult) (net : Nat → HttpResult)
    (db : Cache) : Cache × Nat :=
  match pagesOf statusResp with
  | none => (db, 0)
  | some pages => ingestPages net 1 pages db

/-- A remote server serving the fixed page listing `P` (page numbers are
1-based, as in `get_queries(page=page + 1)`). -/
def netOf (P : List (List Json)) : Nat → HttpResult :=
  fun p =>
    match P.get? (p - 1) with
    | some items => HttpResult.resp 200 (Json.obj [(("results"), Json.arr items)])
    | none => HttpResult.exn

/-- The pairs contributed by the page of index `i` of listing `P`. -/
def pairsAt (P : List (List Json)) (i : Nat) : List (Int × Int) :=
  pagePairs ((P.get? i).getD [])

/-- The dedup-keeping-first-occurrence loop of `get_user_queries`
(src/redash.py:323-328). -/
def dedupAux (seen : List Int) : List Int → List Int
  | [] => []
  | x :: xs =>
    if x ∈ seen then dedupAux seen xs else x :: dedupAux (x :: seen) xs

/-- `get_user_queries` (src/redash.py:292-330).  `healthy` models
whether the sqlite calls succeed: on a storage error the source prints
and returns the empty list. -/
def get_user_queries (healthy : Bool) (db : Cache) (user : Int) : List Int :=
  if healthy then
    dedupAux [] ((db.filter (fun f => f.owner_id == user)).map (fun f => f.query_id))
  else []

/-- The editors of one `GROUP BY query_id` group, in row order: the
content of `GROUP_CONCAT(editor_id)` (src/redash.py:348). -/
def groupEditors (rows : Cache) (q : Int) : List Int :=
  (rows.filter (fun f => f.query_id == q)).map (fun f => f.editor_id)

/-- `get_user_queries_with_editors` (src/redash.py:333-372).  The source
runs `int(row[1])` on the `GROUP_CONCAT` string; that parse succeeds
exactly when the group holds a single row, and a `ValueError` makes the
loop `continue`, dropping the whole query from the result. -/
def get_user_queries_with_editors (healthy : Bool) (db : Cache) (user : Int) :
    List (Int × List Int) :=
  if healthy then
    let rows := db.filter (fun f => f.owner_id == user)
    (dedupAux [] (rows.map (fun f => f.query_id))).filterMap (fun q =>
      match groupEditors rows q with
      | [e] => some (q, [e])
      | _ => none)
  else []

/-- `has_access` (src/redash.py:375-397): `1` when a row with that
query and editor exists; a storage error prints and returns `0`. -/
def has_access (healthy : Bool) (db : Cache) (q u : Int) : Int :=
  if healthy then
    if db.any (fun f => f.query_id == q && f.editor_id == u) then 1 else 0
  else 0

/-- `set_query_acl` (src/redash.py:115-170): on remote success, recover
the owner from the table when it was not passed
(`SELECT owner_id ... LIMIT 1`), then insert the fact; on remote
failure or a storage error the table is untouched. -/
def set_query_acl (remoteOk : Bool) (healthy : Bool) (db : Cache)
    (query_id user_id : Int) (owner_id : Option Int) : Cache :=
  if remoteOk = false then db
  else if healthy = false then db
  else
    let ow : Option Int :=
      match owner_id with
      | some o => some o
      | none =>
        ((db.filter (fun f => f.query_id == query_id)).head?).map
          (fun f => f.owner_id)
    match ow with
    | none => db
    | some o => insertFact db ⟨query_id, o, user_id⟩

/-- Member-id extraction of `update_accesses_in_group`
(src/redash.py:417-421): skip non-dict members and members whose id is
missing or `0`. -/
def extractMembers (ms : List Json) : List Int :=
  ms.filterMap (fun m =>
    match m with
    | Json.obj fs =>
      let i := getNumD (Json.obj fs) ("id") 0
      if i == 0 then none else some i
    | _ => none)

/-- Instrumented reconciliation state: the table, every
`set_query_acl` call issued as `(query_id, user_id, owner_id)`, and
every `has_access` probe issued as `(query_id, editor)`. -/
structure RunState where
  db : Cache
  calls : List (Int × Int × Int)
  checked : List (Int × Int)
deriving DecidableEq, Repr

/-- The query loop of `update_accesses_in_group` (src/redash.py:428-430)
for a fixed owner and editor.  `remoteOk q e` tells whether the grant
request for `(q, e)` succeeds remotely. -/
def grantLoop (healthy : Bool) (remoteOk : Int → Int → Bool)
    (owner editor : Int) : List Int → RunState → RunState
  | [], st => st
  | q :: qs, st =>
    let st' :=
      if has_access healthy st.db q editor == 0 then
        { db := set_query_acl (remoteOk q editor) healthy st.db q editor (some owner),
          calls := st.calls ++ [(q, editor, owner)],
          checked := st.checked ++ [(q, editor)] }
      else
        { st with checked := st.checked ++ [(q, editor)] }
    grantLoop healthy remoteOk owner editor qs st'

/-- The editor loop of `update_accesses_in_group`
(src/redash.py:425-430): every group member except the owner. -/
def editorLoop (healthy : Bool) (remoteOk : Int → Int → Bool) (owner : Int)
    (memberQueries : List Int) : List Int → RunState → RunState
  | [], st => st
  | e :: es, st =>
    let st' :=
      if e == owner then st
      else grantLoop healthy remoteOk owner e memberQueries st
    editorLoop healthy remoteOk owner memberQueries es st'

/-- The outer member loop of `update_accesses_in_group`
(src/redash.py:423-430): `get_user_queries` is read once per owner,
from the table state current at that moment. -/
def userLoop (healthy : Bool) (remoteOk : Int → Int → Bool)
    (users : List Int) : List Int → RunState → RunState
  | [], st => st
  | u :: us, st =>
    let mq := get_user_queries healthy st.db u
    userLoop healthy remoteOk users us (editorLoop healthy remoteOk u mq users st)

/-- `update_accesses_in_group` (src/redash.py:400-432). -/
def update_accesses_in_group (healthy : Bool) (remoteOk : Int → Int → Bool)
    (groupResp : HttpResult) (db : Cache) : RunState :=
  match get_users_in_group groupResp with
  | none => ⟨db, [], []⟩
  | some ms =>
    let users := extractMembers ms
    userLoop healthy remoteOk users users ⟨db, [], []⟩

/-- Both runs preserve the per-owner query listing and the
`(query_id, owner_id)` pair content of the table; this is the invariant
that makes the reconciliation loop's probe sequence deterministic. -/
def cacheStable (db0 db : Cache) : Prop :=
  (∀ u, get_user_queries true db u = get_user_queries true db0 u) ∧
  (∀ q o, pairExists db q o = pairExists db0 q o)

/-- The `(query_id, editor)` probe sequence reconciliation performs on a
working cache, as a pure function of the starting table and members. -/
def canonChecked (db0 : Cache) (users us : List Int) : List (Int × Int) :=
  us.flatMap (fun u =>
    users.flatMap (fun e =>
      if e == u then []
      else (get_user_queries true db0 u).map (fun q => (q, e))))

/-- A two-page demo listing: page 1 holds query 1 of user 10, page 2
holds query 2 of user 20. -/
def demoPages : List (List Json) :=
  [[Json.obj [(("id"), Json.num 1), (("user"), Json.obj [(("id"), Json.num 10)])]],
   [Json.obj [(("id"), Json.num 2), (("user"), Json.obj [(("id"), Json.num 20)])]]]

/-- A status response reporting 30 queries, hence `30 // 25 + 1 = 2`
pages. -/
def demoStatus : HttpResult :=
  HttpResult.resp 200 (Json.obj [(("queries_count"), Json.num 30)])

/-- A group-members response for the two-member group `[10, 20]`. -/
def demoGroup : HttpResult :=
  HttpResult.resp 200 (Json.arr
    [Json.obj [(("id"), Json.num 10)], Json.obj [(("id"), Json.num 20)]])

/-! ### Basic lemmas about the table and the ingestion page loop -/

theorem insertFact_mem_eq (db : Cache) (f : Fact) (h : f ∈ db) :
    insertFact db f = db := by
  unfold insertFact
  rw [if_pos h]

theorem mem_insertFact_self (db : Cache) (f : Fact) : f ∈ insertFact db f := by
  unfold insertFact
  split
  · assumption
  · simp

theorem mem_insertFact (db : Cache) (f g : Fact) (h : f ∈ db) : f ∈ insertFact db g := by
  unfold insertFact; split
  · exact h
  · exact List.mem_append_left _ h

theorem insertFact_ext (db : Cache) (f : Fact) : ∃ t, insertFact db f = db ++ t := by
  unfold insertFact; split
  · exact ⟨[], by simp⟩
  · exact ⟨[f], rfl⟩

theorem ext_trans {a b c : Cache} (h1 : ∃ t, b = a ++ t) (h2 : ∃ t, c = b ++ t) :
    ∃ t, c = a ++ t := by
  obtain ⟨t1, rfl⟩ := h1
  obtain ⟨t2, rfl⟩ := h2
  exact ⟨t1 ++ t2, List.append_assoc a t1 t2⟩

theorem pairExists_iff (db : Cache) (q o : Int) :
    pairExists db q o = true ↔ ∃ f ∈ db, f.query_id = q ∧ f.owner_id = o := by
  simp [pairExists, List.any_eq_true]

theorem pairExists_append (db t : Cache) (q o : Int) (h : pairExists db q o = true) :
    pairExists (db ++ t) q o = true := by
  unfold pairExists at *
  simp only [List.any_append, h, Bool.true_or]

theorem pairExists_insertFact_self (db : Cache) (q o e : Int) :
    pairExists (insertFact db ⟨q, o, e⟩) q o = true := by
  unfold insertFact; split
  · next h => exact (pairExists_iff db q o).mpr ⟨⟨q, o, e⟩, h, rfl, rfl⟩
  · exact (pairExists_iff _ q o).mpr ⟨⟨q, o, e⟩, by simp, rfl, rfl⟩

theorem pairExists_insertFact_elim (db : Cache) (f : Fact) (q o : Int)
    (h : pairExists (insertFact db f) q o = true) :
    pairExists db q o = true ∨ (f.query_id = q ∧ f.owner_id = o) := by
  unfold insertFact at h
  split at h
  · exact Or.inl h
  · rcases (pairExists_iff _ q o).mp h with ⟨g, hg, hq, ho⟩
    rcases List.mem_append.mp hg with hg | hg
    · exact Or.inl ((pairExists_iff db q o).mpr ⟨g, hg, hq, ho⟩)
    · simp only [List.mem_singleton] at hg
      subst hg
      exact Or.inr ⟨hq, ho⟩

theorem pagePairs_cons_none (item : Json) (rest : List Json)
    (hx : extractFact item = none) : pagePairs (item :: rest) = pagePairs rest := by
  simp [pagePairs, List.filterMap_cons, hx]

theorem pagePairs_cons_some (item : Json) (rest : List Json) (pr : Int × Int)
    (hx : extractFact item = some pr) :
    pagePairs (item :: rest) = pr :: pagePairs rest := by
  simp [pagePairs, List.filterMap_cons, hx]

theorem processPage_ext (items : List Json) :
    ∀ db b, ∃ t, (processPage db b items).1 = db ++ t := by
  induction items with
  | nil => exact fun db b => ⟨[], by simp [processPage]⟩
  | cons item rest ih =>
    intro db b
    simp only [processPage]
    cases hx : extractFact item with
    | none => exact ih db b
    | some pr =>
      obtain ⟨q, o⟩ := pr
      by_cases hp : pairExists db q o = true
      · simpa [hp] using ih db b
      · simp only [hp, if_false, Bool.false_eq_true]
        exact ext_trans (insertFact_ext db ⟨q, o, o⟩) (ih _ true)

theorem pairExists_processPage (items : List Json) (db : Cache) (b : Bool) (q o : Int)
    (h : pairExists db q o = true) :
    pairExists (processPage db b items).1 q o = true := by
  obtain ⟨t, ht⟩ := processPage_ext items db b
  rw [ht]
  exact pairExists_append db t q o h

theorem processPage_flag_true (items : List Json) :
    ∀ db, (processPage db true items).2 = true := by
  induction items with
  | nil => intro db; rfl
  | cons item rest ih =>
    intro db
    simp only [processPage]
    cases hx : extractFact item with
    | none => exact ih db
    | some pr =>
      obtain ⟨q, o⟩ := pr
      by_cases hp : pairExists db q o = true <;> simp [hp] <;> apply ih

theorem processPage_all_dup (items : List Json) :
    ∀ db b, (∀ pr ∈ pagePairs items, pairExists db pr.1 pr.2 = true) →
    processPage db b items = (db, b) := by
  induction items with
  | nil => intro db b _; rfl
  | cons item rest ih =>
    intro db b h
    simp only [processPage]
    cases hx : extractFact item with
    | none =>
      rw [pagePairs_cons_none item rest hx] at h
      exact ih db b h
    | some pr =>
      obtain ⟨q, o⟩ := pr
      rw [pagePairs_cons_some item rest (q, o) hx] at h
      have hqo : pairExists db q o = true := h (q, o) (List.mem_cons_self _ _)
      simp only [hqo, if_true]
      exact ih db b fun pr hpr => h pr (List.mem_cons_of_mem _ hpr)

theorem processPage_new (items : List Json) :
    ∀ db b q o, (q, o) ∈ pagePairs items → pairExists db q o = false →
    (processPage db b items).2 = true := by
  induction items with
  | nil => intro db b q o hmem _; simp [pagePairs] at hmem
  | cons item rest ih =>
    intro db b q o hmem hfresh
    simp only [processPage]
    cases hx : extractFact item with
    | none =>
      rw [pagePairs_cons_none item rest hx] at hmem
      exact ih db b q o hmem hfresh
    | some pr =>
      obtain ⟨q', o'⟩ := pr
      rw [pagePairs_cons_some item rest (q', o') hx] at hmem
      by_cases hp : pairExists db q' o' = true
      · simp only [hp, if_true]
        rcases List.mem_cons.mp hmem with hmem | hmem
        · obtain ⟨rfl, rfl⟩ := Prod.mk.injEq q o q' o' ▸ hmem
          rw [hp] at hfresh
          cases hfresh
        · exact ih db b q o hmem hfresh
      · simp only [hp, if_false, Bool.false_eq_true]
        exact processPage_flag_true rest _

theorem processPage_pair_src (items : List Json) :
    ∀ db b q o, pairExists (processPage db b items).1 q o = true →
    pairExists db q o = true ∨ (q, o) ∈ pagePairs items := by
  induction items with
  | nil => intro db b q o h; exact Or.inl h
  | cons item rest ih =>
    intro db b q o h
    simp only [processPage] at h
    cases hx : extractFact item with
    | none =>
      rw [hx] at h
      rcases ih db b q o h with h | h
      · exact Or.inl h
      · exact Or.inr (by rw [pagePairs_cons_none item rest hx]; exact h)
    | some pr =>
      obtain ⟨q', o'⟩ := pr
      rw [hx] at h
      rw [pagePairs_cons_some item rest (q', o') hx]
      by_cases hp : pairExists db q' o' = true
      · simp only [hp, if_true] at h
        rcases ih db b q o h with h | h
        · exact Or.inl h
        · exact Or.inr (List.mem_cons_of_mem _ h)
      · simp only [hp, if_false, Bool.false_eq_true] at h
        rcases ih _ true q o h with h | h
        · rcases pairExists_insertFact_elim db _ q o h with h | h
          · exact Or.inl h
          · refine Or.inr (List.mem_cons.mpr (Or.inl ?_))
            obtain ⟨h1, h2⟩ := h
            simp only [] at h1 h2
            rw [← h1, ← h2]
        · exact Or.inr (List.mem_cons_of_mem _ h)

/-! ### The page loop and the convergence heuristic -/

theorem pageResults_netOf (P : List (List Json)) (p : Nat) :
    pageResults (netOf P (p + 1)) = P.get? p := by
  unfold netOf
  simp only [Nat.add_sub_cancel]
  cases h : P.get? p with
  | none => simp [pageResults, get_queries, send_request]
  | some items =>
    simp [pageResults, get_queries, send_request, nonEmptyMessage, jGet, lookupField]

theorem ingestPages_ext (net : Nat → HttpResult) :
    ∀ fuel page db, ∃ t, (ingestPages net page fuel db).1 = db ++ t := by
  intro fuel
  induction fuel with
  | zero => exact fun page db => ⟨[], by simp [ingestPages]⟩
  | succ n ih =>
    intro page db
    simp only [ingestPages]
    cases h : pageResults (net page) with
    | none => exact ⟨[], by simp⟩
    | some items =>
      by_cases hn : (processPage db false items).2 = true
      · simp only [hn, if_true]
        exact ext_trans (processPage_ext items db false) (ih _ _)
      · simp only [hn, if_false, Bool.false_eq_true]
        exact processPage_ext items db false

theorem download_ext (statusResp : HttpResult) (net : Nat → HttpResult) (db : Cache) :
    ∃ t, (download_queries_info statusResp net db).1 = db ++ t := by
  unfold download_queries_info
  cases h : pagesOf statusResp with
  | none => exact ⟨[], by simp⟩
  | some pages => exact ingestPages_ext net pages 1 db

theorem ingest_cold_requests (P : List (List Json))
    (hsome : ∀ i, i < P.length → pairsAt P i ≠ [])
    (hdisj : ∀ j, j < P.length → ∀ i, i < j → ∀ pr ∈ pairsAt P i, pr ∉ pairsAt P j) :
    ∀ fuel i db, i + fuel = P.length →
    (∀ q o, pairExists db q o = true → ∃ j, j < i ∧ (q, o) ∈ pairsAt P j) →
    (ingestPages (netOf P) (i + 1) fuel db).2 = fuel := by
  intro fuel
  induction fuel with
  | zero => intro i db _ _; simp [ingestPages]
  | succ n ih =>
    intro i db hlen hinv
    have hi : i < P.length := by omega
    cases hpg : P.get? i with
    | none =>
      have := List.get?_eq_none.mp hpg
      omega
    | some pg =>
      have hpairs : pairsAt P i = pagePairs pg := by unfold pairsAt; rw [hpg]; rfl
      simp only [ingestPages, pageResults_netOf, hpg]
      obtain ⟨⟨pq, po⟩, hpr⟩ := List.exists_mem_of_ne_nil _ (hsome i hi)
      have hfr : pairExists db pq po = false := by
        cases hb : pairExists db pq po
        · rfl
        · obtain ⟨j, hj, hjmem⟩ := hinv pq po hb
          exact absurd hpr (hdisj i hi j hj (pq, po) hjmem)
      have hflag : (processPage db false pg).2 = true :=
        processPage_new pg db false pq po (hpairs ▸ hpr) hfr
      simp only [hflag, if_true]
      have hrec := ih (i + 1) (processPage db false pg).1 (by omega) ?_
      · rw [hrec]
      · intro q o hqo
        rcases processPage_pair_src pg db false q o hqo with h | h
        · obtain ⟨j, hj, hjm⟩ := hinv q o h
          exact ⟨j, by omega, hjm⟩
        · exact ⟨i, by omega, hpairs ▸ h⟩

theorem ingest_rerun_requests (P : List (List Json)) (C : Cache) (k : Nat)
    (hfresh : ∀ i, i < k → ∃ pr ∈ pairsAt P i, pairExists C pr.1 pr.2 = false)
    (hdup : ∀ i, i < P.length → k ≤ i → ∀ pr ∈ pairsAt P i, pairExists C pr.1 pr.2 = true)
    (hdisj : ∀ j, j < P.length → ∀ i, i < j → ∀ pr ∈ pairsAt P i, pr ∉ pairsAt P j) :
    ∀ fuel i db, i + fuel = P.length → i ≤ k → k < P.length →
    (∀ q o, pairExists C q o = true → pairExists db q o = true) →
    (∀ q o, pairExists db q o = true →
      pairExists C q o = true ∨ ∃ j, j < i ∧ (q, o) ∈ pairsAt P j) →
    (ingestPages (netOf P) (i + 1) fuel db).2 = (k - i) + 1 := by
  intro fuel
  induction fuel with
  | zero => intro i db hlen hik hk _ _; omega
  | succ n ih =>
    intro i db hlen hik hk hext hprov
    have hi : i < P.length := by omega
    cases hpg : P.get? i with
    | none =>
      have := List.get?_eq_none.mp hpg
      omega
    | some pg =>
      have hpairs : pairsAt P i = pagePairs pg := by unfold pairsAt; rw [hpg]; rfl
      simp only [ingestPages, pageResults_netOf, hpg]
      by_cases hcase : i < k
      · obtain ⟨⟨pq, po⟩, hprmem, hprC⟩ := hfresh i hcase
        have hfr : pairExists db pq po = false := by
          cases hb : pairExists db pq po
          · rfl
          · rcases hprov pq po hb with hC | ⟨j, hj, hjmem⟩
            · rw [hprC] at hC
              cases hC
            · exact absurd hprmem (hdisj i hi j hj (pq, po) hjmem)
        have hflag : (processPage db false pg).2 = true :=
          processPage_new pg db false pq po (hpairs ▸ hprmem) hfr
        simp only [hflag, if_true]
        have hrec := ih (i + 1) (processPage db false pg).1 (by omega) (by omega) hk ?_ ?_
        · rw [hrec]
          omega
        · intro q o hqo
          exact pairExists_processPage pg db false q o (hext q o hqo)
        · intro q o hqo
          rcases processPage_pair_src pg db false q o hqo with h | h
          · rcases hprov q o h with h | ⟨j, hj, hjm⟩
            · exact Or.inl h
            · exact Or.inr ⟨j, by omega, hjm⟩
          · exact Or.inr ⟨i, by omega, hpairs ▸ h⟩
      · have hall : ∀ pr ∈ pagePairs pg, pairExists db pr.1 pr.2 = true := by
          intro pr hpr
          exact hext pr.1 pr.2 (hdup i hi (by omega) pr (hpairs ▸ hpr))
        have hdone := processPage_all_dup pg db false hall
        simp [hdone]
        omega

/-! ### Lemmas about the cache reads and the reconciliation loops -/

theorem dedupAux_append_mem (x : Int) :
    ∀ (l seen : List Int), (x ∈ l ∨ x ∈ seen) →
    dedupAux seen (l ++ [x]) = dedupAux seen l := by
  intro l
  induction l with
  | nil =>
    intro seen h
    rcases h with h | h
    · cases h
    · simp [dedupAux, h]
  | cons y ys ih =>
    intro seen h
    by_cases hy : y ∈ seen
    · simp only [List.cons_append, dedupAux, if_pos hy]
      refine ih seen ?_
      rcases h with h | h
      · rcases List.mem_cons.mp h with rfl | h
        · exact Or.inr hy
        · exact Or.inl h
      · exact Or.inr h
    · simp only [List.cons_append, dedupAux, if_neg hy]
      congr 1
      refine ih (y :: seen) ?_
      rcases h with h | h
      · rcases List.mem_cons.mp h with rfl | h
        · exact Or.inr (List.mem_cons_self _ _)
        · exact Or.inl h
      · exact Or.inr (List.mem_cons_of_mem _ h)

theorem mem_of_mem_dedupAux (x : Int) :
    ∀ (l seen : List Int), x ∈ dedupAux seen l → x ∈ l := by
  intro l
  induction l with
  | nil => intro seen h; simp [dedupAux] at h
  | cons y ys ih =>
    intro seen h
    simp only [dedupAux] at h
    split at h
    · exact List.mem_cons_of_mem _ (ih _ h)
    · rcases List.mem_cons.mp h with rfl | h
      · exact List.mem_cons_self _ _
      · exact List.mem_cons_of_mem _ (ih _ h)

theorem pairExists_of_mem_guq (db : Cache) (u q : Int)
    (h : q ∈ get_user_queries true db u) : pairExists db q u = true := by
  unfold get_user_queries at h
  rw [if_pos rfl] at h
  have h2 := mem_of_mem_dedupAux q _ [] h
  rw [List.mem_map] at h2
  obtain ⟨f, hf, rfl⟩ := h2
  rw [List.mem_filter] at hf
  refine (pairExists_iff db _ u).mpr ⟨f, hf.1, rfl, ?_⟩
  simpa using hf.2

theorem guq_insert_pair (db : Cache) (q o e : Int) (hp : pairExists db q o = true)
    (u : Int) :
    get_user_queries true (insertFact db ⟨q, o, e⟩) u = get_user_queries true db u := by
  unfold insertFact
  split
  · rfl
  · unfold get_user_queries
    rw [if_pos rfl, if_pos rfl, List.filter_append, List.map_append]
    by_cases ho : o = u
    · have hfil : List.filter (fun f => f.owner_id == u) [(⟨q, o, e⟩ : Fact)]
          = [⟨q, o, e⟩] := by
        simp [List.filter_singleton, ho]
      rw [hfil]
      refine dedupAux_append_mem q _ [] (Or.inl ?_)
      rcases (pairExists_iff db q o).mp hp with ⟨f, hf, hfq, hfo⟩
      rw [List.mem_map]
      exact ⟨f, List.mem_filter.mpr ⟨hf, by simp [hfo, ho]⟩, hfq⟩
    · have hfil : List.filter (fun f => f.owner_id == u) [(⟨q, o, e⟩ : Fact)]
          = [] := by
        simp [List.filter_singleton, ho]
      rw [hfil]
      simp

theorem pairExists_insert_pair (db : Cache) (q o e : Int) (hp : pairExists db q o = true)
    (q' o' : Int) :
    pairExists (insertFact db ⟨q, o, e⟩) q' o' = pairExists db q' o' := by
  cases hb : pairExists db q' o' with
  | true =>
    unfold insertFact
    split
    · exact hb
    · exact pairExists_append db [⟨q, o, e⟩] q' o' hb
  | false =>
    cases hl : pairExists (insertFact db ⟨q, o, e⟩) q' o' with
    | false => rfl
    | true =>
      rcases pairExists_insertFact_elim db _ q' o' hl with h | ⟨h1, h2⟩
      · rw [h] at hb
        cases hb
      · have h1' : q = q' := h1
        have h2' : o = o' := h2
        subst h1'
        subst h2'
        rw [hp] at hb
        cases hb

theorem cacheStable_refl (db : Cache) : cacheStable db db :=
  ⟨fun _ => rfl, fun _ _ => rfl⟩

theorem cacheStable_insert (db0 db : Cache) (q o e : Int)
    (hs : cacheStable db0 db) (hp : pairExists db q o = true) :
    cacheStable db0 (insertFact db ⟨q, o, e⟩) := by
  obtain ⟨h1, h2⟩ := hs
  refine ⟨fun u => ?_, fun q' o' => ?_⟩
  · rw [guq_insert_pair db q o e hp u, h1 u]
  · rw [pairExists_insert_pair db q o e hp q' o', h2 q' o']

theorem set_query_acl_some (ok : Bool) (db : Cache) (q e o : Int) :
    set_query_acl ok true db q e (some o) =
      if ok then insertFact db ⟨q, o, e⟩ else db := by
  cases ok <;> simp [set_query_acl]

theorem set_query_acl_ext (ok healthy : Bool) (db : Cache) (q u : Int)
    (ow : Option Int) : ∃ t, set_query_acl ok healthy db q u ow = db ++ t := by
  unfold set_query_acl
  split
  · exact ⟨[], by simp⟩
  · split
    · exact ⟨[], by simp⟩
    · cases ow with
      | some o => simpa using insertFact_ext db ⟨q, o, u⟩
      | none =>
        cases h : (db.filter (fun f => f.query_id == q)).head? with
        | none => exact ⟨[], by simp [h]⟩
        | some f => simpa [h] using insertFact_ext db ⟨q, f.owner_id, u⟩

theorem has_access_append (db t : Cache) (q e : Int)
    (h : has_access true db q e = 1) : has_access true (db ++ t) q e = 1 := by
  unfold has_access at *
  rw [if_pos rfl] at *
  split at h
  next hany =>
    rw [List.any_append, hany]
    simp
  next => exact absurd h (by decide)

theorem grantLoop_ext (healthy : Bool) (ok : Int → Int → Bool) (owner e : Int) :
    ∀ (qs : List Int) (st : RunState),
    ∃ t, (grantLoop healthy ok owner e qs st).db = st.db ++ t := by
  intro qs
  induction qs with
  | nil => exact fun st => ⟨[], by simp [grantLoop]⟩
  | cons q qs ih =>
    intro st
    simp only [grantLoop]
    by_cases hc : (has_access healthy st.db q e == 0) = true
    · rw [if_pos hc]
      exact ext_trans (set_query_acl_ext (ok q e) healthy st.db q e (some owner)) (ih _)
    · rw [if_neg hc]
      exact ih _

theorem editorLoop_ext (healthy : Bool) (ok : Int → Int → Bool) (owner : Int)
    (mq : List Int) : ∀ (es : List Int) (st : RunState),
    ∃ t, (editorLoop healthy ok owner mq es st).db = st.db ++ t := by
  intro es
  induction es with
  | nil => exact fun st => ⟨[], by simp [editorLoop]⟩
  | cons e es ih =>
    intro st
    simp only [editorLoop]
    by_cases he : (e == owner) = true
    · rw [if_pos he]
      exact ih st
    · rw [if_neg he]
      exact ext_trans (grantLoop_ext healthy ok owner e mq st) (ih _)

theorem userLoop_ext (healthy : Bool) (ok : Int → Int → Bool) (users : List Int) :
    ∀ (us : List Int) (st : RunState),
    ∃ t, (userLoop healthy ok users us st).db = st.db ++ t := by
  intro us
  induction us with
  | nil => exact fun st => ⟨[], by simp [userLoop]⟩
  | cons u us ih =>
    intro st
    simp only [userLoop]
    exact ext_trans
      (editorLoop_ext healthy ok u (get_user_queries healthy st.db u) users st) (ih _)

theorem update_ext (healthy : Bool) (ok : Int → Int → Bool) (groupResp : HttpResult)
    (db : Cache) :
    ∃ t, (update_accesses_in_group healthy ok groupResp db).db = db ++ t := by
  unfold update_accesses_in_group
  cases hg : get_users_in_group groupResp with
  | none => exact ⟨[], by simp⟩
  | some ms => exact userLoop_ext healthy ok (extractMembers ms) (extractMembers ms) ⟨db, [], []⟩

theorem grantLoop_stable (db0 : Cache) (ok : Int → Int → Bool) (owner e : Int) :
    ∀ (qs : List Int) (st : RunState), cacheStable db0 st.db →
    (∀ q ∈ qs, pairExists db0 q owner = true) →
    cacheStable db0 (grantLoop true ok owner e qs st).db ∧
    (grantLoop true ok owner e qs st).checked
      = st.checked ++ qs.map (fun q => (q, e)) := by
  intro qs
  induction qs with
  | nil => intro st hs _; exact ⟨hs, by simp [grantLoop]⟩
  | cons q qs ih =>
    intro st hs hq
    simp only [grantLoop]
    by_cases hc : (has_access true st.db q e == 0) = true
    · rw [if_pos hc]
      have hp : pairExists st.db q owner = true := by
        rw [hs.2 q owner]
        exact hq q (List.mem_cons_self _ _)
      have hs' : cacheStable db0 (set_query_acl (ok q e) true st.db q e (some owner)) := by
        rw [set_query_acl_some]
        cases hok : ok q e
        · simpa using hs
        · rw [if_pos rfl]
          exact cacheStable_insert db0 st.db q owner e hs hp
      obtain ⟨ha, hb⟩ := ih
        ⟨set_query_acl (ok q e) true st.db q e (some owner),
         st.calls ++ [(q, e, owner)], st.checked ++ [(q, e)]⟩
        hs' (fun q' h => hq q' (List.mem_cons_of_mem _ h))
      refine ⟨ha, ?_⟩
      rw [hb]
      simp
    · rw [if_neg hc]
      obtain ⟨ha, hb⟩ := ih ⟨st.db, st.calls, st.checked ++ [(q, e)]⟩ hs
        (fun q' h => hq q' (List.mem_cons_of_mem _ h))
      refine ⟨ha, ?_⟩
      rw [hb]
      simp

theorem editorLoop_stable (db0 : Cache) (ok : Int → Int → Bool) (owner : Int)
    (mq : List Int) (hq : ∀ q ∈ mq, pairExists db0 q owner = true) :
    ∀ (es : List Int) (st : RunState), cacheStable db0 st.db →
    cacheStable db0 (editorLoop true ok owner mq es st).db ∧
    (editorLoop true ok owner mq es st).checked
      = st.checked ++ es.flatMap (fun e =>
          if e == owner then [] else mq.map (fun q => (q, e))) := by
  intro es
  induction es with
  | nil => intro st hs; exact ⟨hs, by simp [editorLoop]⟩
  | cons e es ih =>
    intro st hs
    simp only [editorLoop]
    by_cases he : (e == owner) = true
    · rw [if_pos he]
      have he' : e = owner := by simpa using he
      obtain ⟨ha, hb⟩ := ih st hs
      refine ⟨ha, ?_⟩
      rw [hb]
      simp [List.flatMap_cons, he']
    · rw [if_neg he]
      have he' : ¬e = owner := by simpa using he
      obtain ⟨hg1, hg2⟩ := grantLoop_stable db0 ok owner e mq st hs hq
      obtain ⟨ha, hb⟩ := ih _ hg1
      refine ⟨ha, ?_⟩
      rw [hb, hg2]
      simp [List.flatMap_cons, he']

theorem userLoop_stable (db0 : Cache) (ok : Int → Int → Bool) (users : List Int) :
    ∀ (us : List Int) (st : RunState), cacheStable db0 st.db →
    cacheStable db0 (userLoop true ok users us st).db ∧
    (userLoop true ok users us st).checked
      = st.checked ++ canonChecked db0 users us := by
  intro us
  induction us with
  | nil => intro st hs; exact ⟨hs, by simp [userLoop, canonChecked]⟩
  | cons u us ih =>
    intro st hs
    simp only [userLoop]
    rw [hs.1 u]
    have hmem : ∀ q ∈ get_user_queries true db0 u, pairExists db0 q u = true :=
      fun q h => pairExists_of_mem_guq db0 u q h
    obtain ⟨he1, he2⟩ :=
      editorLoop_stable db0 ok u (get_user_queries true db0 u) hmem users st hs
    obtain ⟨ha, hb⟩ := ih _ he1
    refine ⟨ha, ?_⟩
    rw [hb, he2]
    simp [canonChecked, List.flatMap_cons]

theorem editorLoop_empty_queries (healthy : Bool) (ok : Int → Int → Bool)
    (owner : Int) : ∀ (es : List Int) (st : RunState),
    editorLoop healthy ok owner [] es st = st := by
  intro es
  induction es with
  | nil => intro st; rfl
  | cons e es ih =>
    intro st
    simp only [editorLoop]
    by_cases he : (e == owner) = true
    · rw [if_pos he]
      exact ih st
    · rw [if_neg he]
      simp only [grantLoop]
      exact ih st

theorem userLoop_unhealthy (ok : Int → Int → Bool) (users : List Int) :
    ∀ (us : List Int) (st : RunState), userLoop false ok users us st = st := by
  intro us
  induction us with
  | nil => intro st; rfl
  | cons u us ih =>
    intro st
    simp only [userLoop]
    rw [show get_user_queries false st.db u = [] from rfl,
      editorLoop_empty_queries false ok u users st]
    exact ih st

theorem grantLoop_no_call (ok : Int → Int → Bool) (owner e : Int) (qt et ot : Int) :
    ∀ (qs : List Int) (st : RunState),
    has_access true st.db qt et = 1 → (qt, et, ot) ∉ st.calls →
    (qt, et, ot) ∉ (grantLoop true ok owner e qs st).calls := by
  intro qs
  induction qs with
  | nil => intro st _ h; exact h
  | cons q qs ih =>
    intro st hacc hnot
    simp only [grantLoop]
    by_cases hc : (has_access true st.db q e == 0) = true
    · rw [if_pos hc]
      refine ih _ ?_ ?_
      · obtain ⟨t, ht⟩ := set_query_acl_ext (ok q e) true st.db q e (some owner)
        rw [ht]
        exact has_access_append st.db t qt et hacc
      · intro hmem
        rcases List.mem_append.mp hmem with hmem | hmem
        · exact hnot hmem
        · simp only [List.mem_singleton, Prod.mk.injEq] at hmem
          obtain ⟨rfl, rfl, rfl⟩ := hmem
          rw [hacc] at hc
          exact absurd hc (by decide)
    · rw [if_neg hc]
      exact ih _ hacc hnot

theorem editorLoop_no_call (ok : Int → Int → Bool) (owner : Int) (mq : List Int)
    (qt et ot : Int) : ∀ (es : List Int) (st : RunState),
    has_access true st.db qt et = 1 → (qt, et, ot) ∉ st.calls →
    (qt, et, ot) ∉ (editorLoop true ok owner mq es st).calls := by
  intro es
  induction es with
  | nil => intro st _ h; exact h
  | cons e es ih =>
    intro st hacc hnot
    simp only [editorLoop]
    by_cases he : (e == owner) = true
    · rw [if_pos he]
      exact ih st hacc hnot
    · rw [if_neg he]
      refine ih _ ?_ (grantLoop_no_call ok owner e qt et ot mq st hacc hnot)
      obtain ⟨t, ht⟩ := grantLoop_ext true ok owner e mq st
      rw [ht]
      exact has_access_append st.db t qt et hacc

theorem userLoop_no_call (ok : Int → Int → Bool) (users : List Int)
    (qt et ot : Int) : ∀ (us : List Int) (st : RunState),
    has_access true st.db qt et = 1 → (qt, et, ot) ∉ st.calls →
    (qt, et, ot) ∉ (userLoop true ok users us st).calls := by
  intro us
  induction us with
  | nil => intro st _ h; exact h
  | cons u us ih =>
    intro st hacc hnot
    simp only [userLoop]
    refine ih _ ?_
      (editorLoop_no_call ok u (get_user_queries true st.db u) qt et ot users st hacc hnot)
    obtain ⟨t, ht⟩ := editorLoop_ext true ok u (get_user_queries true st.db u) users st
    rw [ht]
    exact has_access_append st.db t qt et hacc

/-! ### Claim C1: convergence heuristic request count -/

/-- Claim C1: for a remote listing `P` of `N = P.length` nonempty pages
whose contributed pairs are disjoint across pages, where pages of index
`< k` each contain a fact pair absent from the cache `C` and all later
pages contain only pairs already in `C`, `download_queries_info` issues
exactly `N` page requests from an empty cache, and exactly `k + 1` page
requests starting from `C` — the first all-duplicate page stops it. -/
theorem c1_convergence_request_count (statusResp : HttpResult)
    (P : List (List Json)) (C : Cache) (k : Nat)
    (hstatus : pagesOf statusResp = some P.length)
    (hk : k < P.length)
    (hsome : ∀ i ∈ List.range P.length, pairsAt P i ≠ [])
    (hfresh : ∀ i ∈ List.range k, ∃ pr ∈ pairsAt P i, pairExists C pr.1 pr.2 = false)
    (hdup : ∀ i ∈ List.range P.length, k ≤ i →
      ∀ pr ∈ pairsAt P i, pairExists C pr.1 pr.2 = true)
    (hdisj : ∀ j ∈ List.range P.length, ∀ i ∈ List.range j,
      ∀ pr ∈ pairsAt P i, pr ∉ pairsAt P j) :
    (download_queries_info statusResp (netOf P) []).2 = P.length ∧
    (download_queries_info statusResp (netOf P) C).2 = k + 1 := by
  unfold download_queries_info
  rw [hstatus]
  constructor
  · have h := ingest_cold_requests P
      (fun i hi => hsome i (List.mem_range.mpr hi))
      (fun j hj i hi => hdisj j (List.mem_range.mpr hj) i (List.mem_range.mpr hi))
      P.length 0 [] (by omega)
      (fun q o hqo => absurd hqo (by simp [pairExists]))
    simpa using h
  · have h := ingest_rerun_requests P C k
      (fun i hi => hfresh i (List.mem_range.mpr hi))
      (fun i hi hki => hdup i (List.mem_range.mpr hi) hki)
      (fun j hj i hi => hdisj j (List.mem_range.mpr hj) i (List.mem_range.mpr hi))
      P.length 0 C (by omega) (by omega) hk
      (fun q o hqo => hqo) (fun q o hqo => Or.inl hqo)
    simpa using h

/-- Witness for C1: two pages, `k = 1`, and a cache already holding the
fact of page 2; the cold run issues 2 requests, the re-run issues 2. -/
theorem c1_convergence_request_count_witness :
    (download_queries_info demoStatus (netOf demoPages) []).2 = demoPages.length ∧
    (download_queries_info demoStatus (netOf demoPages) [⟨2, 20, 20⟩]).2 = 1 + 1 :=
  c1_convergence_request_count demoStatus demoPages [⟨2, 20, 20⟩] 1
    (by decide) (by decide) (by decide) (by decide) (by decide) (by decide)

/-! ### Claim C2: ingestion fact recording -/

/-- Counterexample to C2 as stated: the table already holds the row
`(5, 7, 9)` (such rows are written by reconciliation), query 5 with
owner 7 arrives on a successfully fetched page, yet the fact
`(5, 7, 7)` is not in the cache after ingestion: the duplicate probe of
src/redash.py:271-275 matches on the `(query_id, owner_id)` pair alone
and skips the insert. -/
theorem c2_fact_recorded_counterexample :
    (download_queries_info
        (HttpResult.resp 200 (Json.obj [(("queries_count"), Json.num 1)]))
        (netOf [[Json.obj [(("id"), Json.num 5),
                           (("user"), Json.obj [(("id"), Json.num 7)])]]])
        [⟨5, 7, 9⟩]).1 = [⟨5, 7, 9⟩] ∧
    (⟨5, 7, 7⟩ : Fact) ∉
      (download_queries_info
        (HttpResult.resp 200 (Json.obj [(("queries_count"), Json.num 1)]))
        (netOf [[Json.obj [(("id"), Json.num 5),
                           (("user"), Json.obj [(("id"), Json.num 7)])]]])
        [⟨5, 7, 9⟩]).1 := by
  constructor
  · rfl
  · decide

/-- Claim C2 (amended): after a page is processed, every query on it
with a known owner has *some* fact with its `(query_id, owner_id)` pair
in the cache — the specific fact `(query_id, owner_id, owner_id)` is
inserted only when no fact with that pair pre-existed; queries without
an owner are skipped without faulting. -/
theorem c2_pair_recorded (items : List Json) :
    ∀ db b q o, (q, o) ∈ pagePairs items →
    pairExists (processPage db b items).1 q o = true := by
  induction items with
  | nil => intro db b q o h; simp [pagePairs] at h
  | cons item rest ih =>
    intro db b q o h
    simp only [processPage]
    cases hx : extractFact item with
    | none =>
      rw [pagePairs_cons_none item rest hx] at h
      exact ih db b q o h
    | some pr =>
      obtain ⟨q', o'⟩ := pr
      rw [pagePairs_cons_some item rest (q', o') hx] at h
      rcases List.mem_cons.mp h with h | h
      · obtain ⟨rfl, rfl⟩ := Prod.mk.injEq q o q' o' ▸ h
        by_cases hp : pairExists db q o = true
        · simp only [hp, if_true]
          exact pairExists_processPage rest db b q o hp
        · simp only [hp, if_false, Bool.false_eq_true]
          exact pairExists_processPage rest _ true q o
            (pairExists_insertFact_self db q o o)
      · by_cases hp : pairExists db q' o' = true
        · simp only [hp, if_true]
          exact ih db b q o h
        · simp only [hp, if_false, Bool.false_eq_true]
          exact ih _ true q o h

/-- Witness for the amended C2: a fresh page item for query 1 of user 2
leaves its pair recorded. -/
theorem c2_pair_recorded_witness :
    ((1 : Int), (2 : Int)) ∈
      pagePairs [Json.obj [(("id"), Json.num 1),
                           (("user"), Json.obj [(("id"), Json.num 2)])]] ∧
    pairExists
      (processPage [] false
        [Json.obj [(("id"), Json.num 1),
                   (("user"), Json.obj [(("id"), Json.num 2)])]]).1 1 2 = true :=
  ⟨by decide, c2_pair_recorded _ [] false 1 2 (by decide)⟩

/-! ### Claim C3: editors of owned queries -/

/-- C3 fails on the code: when user 10's query 100 has the two recorded
editors 10 and 20, `get_user_queries_with_editors` returns the empty
mapping — the source runs `int` on the `GROUP_CONCAT` string, which
raises `ValueError` for any group of more than one row, and the
`except` clause drops the query.  With a single recorded editor the
query is reported. -/
theorem c3_multi_editor_dropped :
    get_user_queries_with_editors true [⟨100, 10, 10⟩, ⟨100, 10, 20⟩] 10 = [] ∧
    get_user_queries_with_editors true [⟨100, 10, 20⟩] 10 = [(100, [20])] := by
  decide

/-! ### Claim C7: remote client error signalling -/

/-- Counterexample to C7 as stated: a 200 dict body carrying an
application-level error in an `error` field (and no `message` field) is
returned as data by `send_request`, not mapped to the failure
sentinel — the source only inspects `message`. -/
theorem c7_error_field_counterexample :
    send_request
        (HttpResult.resp 200 (Json.obj [(("error"), Json.str ("permission denied"))]))
      = some (Json.obj [(("error"), Json.str ("permission denied"))]) := by
  rfl

/-- Claim C7 (amended): a 200 dict body whose `message` field holds a
value other than the empty string yields the failure sentinel, and a
transport-level exception yields the same sentinel. -/
theorem c7_message_yields_none (fs : List (String × Json))
    (hmsg : nonEmptyMessage (Json.obj fs) = true) :
    send_request (HttpResult.resp 200 (Json.obj fs)) = none ∧
    send_request HttpResult.exn = none := by
  constructor
  · simp [send_request, hmsg]
  · rfl

/-- Witness for the amended C7 at a body with a nonempty `message`. -/
theorem c7_message_yields_none_witness :
    nonEmptyMessage (Json.obj [(("message"), Json.str ("boom"))]) = true ∧
    (send_request (HttpResult.resp 200 (Json.obj [(("message"), Json.str ("boom"))])) = none ∧
     send_request HttpResult.exn = none) :=
  ⟨rfl, c7_message_yields_none [(("message"), Json.str ("boom"))] rfl⟩

/-! ### Claim C8: idempotent upsert -/

/-- Claim C8: `INSERT OR IGNORE` on the triple key is idempotent —
inserting the same fact twice leaves the table exactly as one insert
does, and a duplicate-free table stays duplicate-free. -/
theorem c8_idempotent_upsert (db : Cache) (f : Fact) (h : db.Nodup) :
    insertFact (insertFact db f) f = insertFact db f ∧ (insertFact db f).Nodup := by
  refine ⟨insertFact_mem_eq _ f (mem_insertFact_self db f), ?_⟩
  unfold insertFact
  split
  · exact h
  · next hmem => simp [List.nodup_append, h, hmem]

/-- Witness for C8 on a concrete one-row table. -/
theorem c8_idempotent_upsert_witness :
    ([⟨1, 2, 3⟩] : Cache).Nodup ∧
    (insertFact (insertFact [⟨1, 2, 3⟩] ⟨1, 2, 3⟩) ⟨1, 2, 3⟩
        = insertFact [⟨1, 2, 3⟩] ⟨1, 2, 3⟩ ∧
      (insertFact [⟨1, 2, 3⟩] ⟨1, 2, 3⟩).Nodup) :=
  ⟨by decide, c8_idempotent_upsert [⟨1, 2, 3⟩] ⟨1, 2, 3⟩ (by decide)⟩

/-! ### Claim C10: successful grant with unrecoverable owner -/

/-- Claim C10: when the remote grant succeeds, no `owner_id` was passed
and no row for the query exists to recover an owner from,
`set_query_acl` inserts nothing — the table is returned unchanged (and
the function returns normally: the model is total). -/
theorem c10_missing_owner_no_insert (db : Cache) (q u : Int)
    (h : ∀ f ∈ db, f.query_id ≠ q) :
    set_query_acl true true db q u none = db := by
  have hfil : db.filter (fun f => f.query_id == q) = [] := by
    rw [List.filter_eq_nil_iff]
    intro f hf
    simp [h f hf]
  simp [set_query_acl, hfil]

/-- Witness for C10: a table holding only query 5, granted on query 9. -/
theorem c10_missing_owner_no_insert_witness :
    (∀ f ∈ ([⟨5, 6, 7⟩] : Cache), f.query_id ≠ 9) ∧
    set_query_acl true true [⟨5, 6, 7⟩] 9 3 none = [⟨5, 6, 7⟩] :=
  ⟨by decide, c10_missing_owner_no_insert [⟨5, 6, 7⟩] 9 3 (by decide)⟩

/-! ### Claim C4: no redundant remote calls -/

/-- Claim C4: during `update_accesses_in_group`, when the cache already
records access of editor `e` to query `q` (so a working `has_access`
probe answers 1), the remote grant `set_query_acl` is never invoked for
`(q, e)` — regardless of group, remote outcomes, storage health, or the
owner argument the call would carry. -/
theorem c4_no_redundant_grant (healthy : Bool) (ok : Int → Int → Bool)
    (groupResp : HttpResult) (db : Cache) (q e o : Int)
    (h : has_access true db q e = 1) :
    (q, e, o) ∉ (update_accesses_in_group healthy ok groupResp db).calls := by
  unfold update_accesses_in_group
  cases hg : get_users_in_group groupResp with
  | none => simp
  | some ms =>
    cases healthy
    · show (q, e, o) ∉
        (userLoop false ok (extractMembers ms) (extractMembers ms) ⟨db, [], []⟩).calls
      rw [userLoop_unhealthy ok (extractMembers ms) (extractMembers ms) ⟨db, [], []⟩]
      simp
    · exact userLoop_no_call ok (extractMembers ms) q e o (extractMembers ms)
        ⟨db, [], []⟩ h (by simp)

/-- Witness for C4: editor 20 already has cached access to query 1 of
owner 10, and the run over group `[10, 20]` issues no grant for it. -/
theorem c4_no_redundant_grant_witness :
    has_access true [⟨1, 10, 20⟩] 1 20 = 1 ∧
    (1, 20, 10) ∉
      (update_accesses_in_group true (fun _ _ => true) demoGroup [⟨1, 10, 20⟩]).calls :=
  ⟨by decide,
   c4_no_redundant_grant true (fun _ _ => true) demoGroup [⟨1, 10, 20⟩] 1 20 10 (by decide)⟩

/-! ### Claim C5: partial failure isolation -/

/-- Claim C5: the sequence of `(query, editor)` pairs reconciliation
checks (and, where the check finds no access, attempts) is the same for
every assignment of remote grant outcomes: a failed grant is reported
by `set_query_acl` and the loops continue, so no remaining pair in the
batch is skipped and the run is never aborted by a grant failure. -/
theorem c5_partial_failure_isolation (healthy : Bool) (ok1 ok2 : Int → Int → Bool)
    (groupResp : HttpResult) (db : Cache) :
    (update_accesses_in_group healthy ok1 groupResp db).checked
      = (update_accesses_in_group healthy ok2 groupResp db).checked := by
  unfold update_accesses_in_group
  cases hg : get_users_in_group groupResp with
  | none => rfl
  | some ms =>
    cases healthy
    · show (userLoop false ok1 (extractMembers ms) (extractMembers ms) ⟨db, [], []⟩).checked
        = (userLoop false ok2 (extractMembers ms) (extractMembers ms) ⟨db, [], []⟩).checked
      rw [userLoop_unhealthy ok1 (extractMembers ms) (extractMembers ms) ⟨db, [], []⟩,
        userLoop_unhealthy ok2 (extractMembers ms) (extractMembers ms) ⟨db, [], []⟩]
    · have h1 := (userLoop_stable db ok1 (extractMembers ms) (extractMembers ms)
        ⟨db, [], []⟩ (cacheStable_refl db)).2
      have h2 := (userLoop_stable db ok2 (extractMembers ms) (extractMembers ms)
        ⟨db, [], []⟩ (cacheStable_refl db)).2
      rw [h1, h2]

/-! ### Claim C6: storage failures -/

/-- Counterexample to C6 as stated: a failing storage layer is not
reported to the caller and does not abort the run — `has_access` on a
faulting store answers `0` even though the fact is cached, identically
to an honest no-access answer on an empty cache; `get_user_queries`
answers `[]` identically to an honest empty result; and a
reconciliation run over a faulting store completes normally with the
table untouched instead of aborting. -/
theorem c6_storage_failure_counterexample :
    has_access false [⟨1, 2, 3⟩] 1 3 = 0 ∧ has_access true ([] : Cache) 1 3 = 0 ∧
    get_user_queries false [⟨1, 2, 3⟩] 2 = [] ∧
    get_user_queries true ([] : Cache) 2 = [] ∧
    (update_accesses_in_group false (fun _ _ => true) demoGroup [⟨1, 2, 3⟩]).db
      = [⟨1, 2, 3⟩] := by
  decide

/-- Claim C6 (amended): a storage failure in `has_access` or
`get_user_queries` is logged and converted into a benign default — a
no-access answer and an empty query list respectively — and processing
continues; the run is not aborted. -/
theorem c6_storage_failure_swallowed (db : Cache) (q u w : Int) :
    has_access false db q u = 0 ∧ get_user_queries false db w = [] :=
  ⟨rfl, rfl⟩

/-! ### Claim C9: monotonic cache growth -/

/-- Claim C9: no operation of the subsystem deletes or mutates a fact:
page processing, a full ingestion run, a single grant, and a full
reconciliation run all return the starting table with rows only
appended, so every fact present before is present, unchanged, after.
(The cache reads `get_user_queries`, `get_user_queries_with_editors`
and `has_access` return query data, not a table, and touch no state in
the source.) -/
theorem c9_monotonic_cache_growth (db : Cache) (b : Bool) (items : List Json)
    (statusResp : HttpResult) (net : Nat → HttpResult) (ok healthy : Bool)
    (q u : Int) (ow : Option Int) (healthy2 : Bool) (rok : Int → Int → Bool)
    (groupResp : HttpResult) :
    (∃ t, (processPage db b items).1 = db ++ t) ∧
    (∃ t, (download_queries_info statusResp net db).1 = db ++ t) ∧
    (∃ t, set_query_acl ok healthy db q u ow = db ++ t) ∧
    (∃ t, (update_accesses_in_group healthy2 rok groupResp db).db = db ++ t) :=
  ⟨processPage_ext items db b, download_ext statusResp net db,
   set_query_acl_ext ok healthy db q u ow, update_ext healthy2 rok groupResp db⟩

end RedashPerm
